import Mathlib

/-!
Verification development for the chunking and retrieval pipeline of the
ai-legal-aiserver repository.

Strings are modelled as `List Char` (Python `str`), machine floats as `ℚ`
(exact rational arithmetic models the score algebra of the source), Python
`dict` rows as structures that carry exactly the keys the modelled code
reads, and fallible subscripts as `Option`.  Python's stable `list.sort`
is modelled by a stable insertion sort (`pySortAsc` / `pySortDesc`).
-/

set_option maxRecDepth 200000

/-- Whitespace test modelling Python's `\s` / `str.strip` character class
(ASCII whitespace plus the Unicode space characters). -/
def pyIsSpace (c : Char) : Bool :=
  c == ' ' || c == '\t' || c == '\n' || c == '\r' || c == '\x0b' || c == '\x0c' ||
  c == '\x1c' || c == '\x1d' || c == '\x1e' || c == '\x1f' || c == '\x85' || c == '\xa0' ||
  c == ' ' || (' ' ≤ c && c ≤ ' ') || c == ' ' || c == ' ' ||
  c == ' ' || c == ' ' || c == '　'

/-- Python `str.strip()` on a character list. -/
def pyStrip (l : List Char) : List Char :=
  ((l.dropWhile pyIsSpace).reverse.dropWhile pyIsSpace).reverse

/-- Python `str.strip()` on a Lean `String`. -/
def pyStripS (s : String) : String :=
  String.mk (pyStrip s.data)

/-- Python `str.rfind(c)`: highest index holding `c`, `-1` when absent. -/
def pyRFind (c : Char) (l : List Char) : Int :=
  match l.reverse.findIdx? (· == c) with
  | some i => (l.length : Int) - 1 - (i : Int)
  | none => -1

/-- Python `hay.startswith(needle)` on character lists. -/
def pyStartsWith : List Char → List Char → Bool
  | _, [] => true
  | [], _ :: _ => false
  | a :: as, b :: bs => a == b && pyStartsWith as bs

/-- Python's substring test `needle in hay` on character lists. -/
def pyContains : List Char → List Char → Bool
  | [], needle => pyStartsWith [] needle
  | hay@(_ :: t), needle => pyStartsWith hay needle || pyContains t needle

/-!
Chunk-size policy of `law_chunker.py` (module constants, lines 30-32).
-/

def lcMIN_CHARS : Nat := 350
def lcSOFT_MAX : Nat := 1200
def lcHARD_MAX : Nat := 1600

/-- Cut index chosen by the hard-cut loop of `make_chunks_from_text`
(lines 85-88): `cut = tmp[:HARD_MAX]`, `idx = cut.rfind(" ")`, replaced by
`HARD_MAX` when `idx < MIN_CHARS`. -/
def hardCutIdx (tmp : List Char) : Nat :=
  let idx0 := pyRFind ' ' (tmp.take lcHARD_MAX)
  if idx0 < (lcMIN_CHARS : Int) then lcHARD_MAX else idx0.toNat

/-- Emergency hard cut of an over-long sentence,
`law_chunker.make_chunks_from_text` lines 84-91: repeatedly cut at the last
space before `HARD_MAX` (or exactly at `HARD_MAX` when that space sits before
`MIN_CHARS`), emitting the cut pieces; returns the pieces and the remaining
tail of length at most `HARD_MAX`. -/
def hardCutLoop (tmp : List Char) : List (List Char) × List Char :=
  if _h : lcHARD_MAX < tmp.length then
    (pyStrip (tmp.take (hardCutIdx tmp)) :: (hardCutLoop (pyStrip (tmp.drop (hardCutIdx tmp)))).1,
     (hardCutLoop (pyStrip (tmp.drop (hardCutIdx tmp)))).2)
  else ([], tmp)
termination_by tmp.length
decreasing_by
  all_goals
    have hs : (pyStrip (tmp.drop (hardCutIdx tmp))).length ≤ (tmp.drop (hardCutIdx tmp)).length := by
      unfold pyStrip
      have h1 : List.Sublist ((tmp.drop (hardCutIdx tmp)).dropWhile pyIsSpace)
          (tmp.drop (hardCutIdx tmp)) := List.dropWhile_sublist _
      have h2 : List.Sublist
          (((tmp.drop (hardCutIdx tmp)).dropWhile pyIsSpace).reverse.dropWhile pyIsSpace)
          ((tmp.drop (hardCutIdx tmp)).dropWhile pyIsSpace).reverse := List.dropWhile_sublist _
      have h3 := h1.length_le
      have h4 := h2.length_le
      simp only [List.length_reverse] at *
      omega
    have hd : (tmp.drop (hardCutIdx tmp)).length = tmp.length - hardCutIdx tmp :=
      List.length_drop _ _
    have hidx : 0 < hardCutIdx tmp := by
      unfold hardCutIdx
      simp only []
      split
      · simp [lcHARD_MAX]
      · rename_i hge
        simp only [lcMIN_CHARS, not_lt] at hge
        omega
    omega

/-- The `flush()` closure of `make_chunks_from_text` (lines 75-79): append the
stripped buffer when it is non-empty. -/
def lcFlush (chunks : List (List Char)) (cur : List Char) : List (List Char) :=
  if cur ≠ [] ∧ pyStrip cur ≠ [] then chunks ++ [pyStrip cur] else chunks

/-- Main accumulation loop of `make_chunks_from_text` (lines 81-114), carried
out over the sentence list `sents` with state `(chunks, cur)`. -/
def lcLoop : List (List Char) × List Char → List (List Char) → List (List Char) × List Char
  | s, [] => s
  | (chunks, cur), st :: rest =>
    if lcHARD_MAX < st.length then
      let hc := hardCutLoop st
      let chunks2 := chunks ++ hc.1
      let tmp := hc.2
      if tmp ≠ [] then
        if cur.length + 1 + tmp.length ≤ lcSOFT_MAX then
          lcLoop (chunks2, if cur = [] then tmp else pyStrip (cur ++ ' ' :: tmp)) rest
        else
          lcLoop (lcFlush chunks2 cur, tmp) rest
      else
        lcLoop (chunks2, cur) rest
    else if cur = [] then
      lcLoop (chunks, st) rest
    else if cur.length + 1 + st.length ≤ lcSOFT_MAX then
      lcLoop (chunks, cur ++ ' ' :: st) rest
    else if cur.length < lcMIN_CHARS then
      let cur2 := cur ++ ' ' :: st
      if lcSOFT_MAX < cur2.length then
        lcLoop (lcFlush chunks cur2, st) rest
      else
        lcLoop (chunks, cur2) rest
    else
      lcLoop (lcFlush chunks cur, st) rest

/-- Chunk texts produced by `make_chunks_from_text` from the sentence list
`sents` (lines 81-121): the accumulation loop, the final flush, and the
trailing safety merge of a final chunk shorter than 200 characters. -/
def make_chunks_core (sents : List (List Char)) : List (List Char) :=
  let res := lcLoop ([], []) sents
  let chunks := lcFlush res.1 res.2
  if 2 ≤ chunks.length ∧ (chunks.getLastD []).length < 200 then
    chunks.dropLast.dropLast ++ [pyStrip (chunks.dropLast.getLastD [] ++ ' ' :: chunks.getLastD [])]
  else chunks

/-!
Chunk records of `law_chunker.py`.
-/

/-- Fixed section-to-index map `SECTION_INDEX` of `law_chunker.py`
(lines 16-24), with the `.get(sec, 99)` default. -/
def SECTION_INDEX (s : String) : Nat :=
  if s = "판결요지" then 0
  else if s = "판시사항" then 1
  else if s = "주문" then 2
  else if s = "판례내용" then 4
  else if s = "전문" then 5
  else if s = "참조조문" then 6
  else if s = "참조판례" then 7
  else 99

/-- The `base_meta` dict assembled in `law_chunker.main` (lines 159-165). -/
structure BaseMeta where
  uid : String
  caseNo : String
  title : String
  court : String
  judgmentDate : String
deriving DecidableEq, Repr

/-- One chunk record emitted by `make_chunks_from_text` (lines 124-133). -/
structure ChunkItem where
  base : BaseMeta
  sectionName : String
  sectionIndex : Nat
  chunkIndex : Nat
  text : List Char
  chars : Nat
deriving DecidableEq, Repr

/-- The `for local_idx, txt in enumerate(chunks)` loop of
`make_chunks_from_text` (lines 124-133), with explicit start index. -/
def enumChunkItems (bm : BaseMeta) (sec : String) : Nat → List (List Char) → List ChunkItem
  | _, [] => []
  | i, t :: ts =>
    { base := bm, sectionName := sec, sectionIndex := SECTION_INDEX sec,
      chunkIndex := i, text := t, chars := t.length } :: enumChunkItems bm sec (i + 1) ts

/-- `law_chunker.make_chunks_from_text`, entered at its local variable
`sents` (the output of the regex sentence splitter, which this development
treats as the input boundary): assemble chunk texts and enumerate them into
records whose `chunk_index` starts at 0. -/
def make_chunks_from_text (bm : BaseMeta) (sec : String) (sents : List (List Char)) :
    List ChunkItem :=
  enumChunkItems bm sec 0 (make_chunks_core sents)

/-- A record as written to `chunks_이혼.jsonl` by `law_chunker.main`
(lines 181-190): the chunk item extended with its `sha1` hash and the
global `chunk_id`. -/
structure Emitted where
  item : ChunkItem
  sha1 : List Char
  chunkId : String
deriving DecidableEq, Repr

/-- The dedup-and-write loop of `law_chunker.main` (lines 181-191) for the
chunk list of one (case, section) group: a chunk whose hash is already in
`seen_hash` is dropped, otherwise it is emitted and its hash remembered.
The hash function `sha1f` (SHA-1 over the chunk text in the source) is a
parameter. -/
def lawChunkerEmitGroup (sha1f : List Char → List Char) (sec : String) :
    List (List Char) → List ChunkItem → List Emitted × List (List Char)
  | seen, [] => ([], seen)
  | seen, it :: rest =>
    let h := sha1f it.text
    if h ∈ seen then
      lawChunkerEmitGroup sha1f sec seen rest
    else
      let e : Emitted :=
        { item := it, sha1 := h,
          chunkId := it.base.uid ++ ":" ++ toString (SECTION_INDEX sec) ++ ":" ++
            toString it.chunkIndex }
      let next := lawChunkerEmitGroup sha1f sec (h :: seen) rest
      (e :: next.1, next.2)

/-- The whole emission pass of `law_chunker.main`: the groups (one per
case-section pair with text, in processing order) share one `seen_hash`
set threaded left to right; returns the emitted records of each group. -/
def lawChunkerRunGo (sha1f : List Char → List Char) :
    List (List Char) → List (String × List ChunkItem) → List (List Emitted)
  | _, [] => []
  | seen, (sec, made) :: gs =>
    let r := lawChunkerEmitGroup sha1f sec seen made
    r.1 :: lawChunkerRunGo sha1f r.2 gs

/-- `law_chunker.main` emission with an initially empty `seen_hash` set. -/
def lawChunkerRun (sha1f : List Char → List Char)
    (groups : List (String × List ChunkItem)) : List (List Emitted) :=
  lawChunkerRunGo sha1f [] groups

/-!
`data/short_merge.py`: merging short chunks inside one
(case_uid, section_name) group.
-/

/-- `MIN_JOIN` of `short_merge.py` (line 10). -/
def MIN_JOIN : Nat := 150

/-- A row of `chunks.jsonl` as read by `short_merge.py` (the fields
`merge_short` touches). -/
structure SMRow where
  caseUid : String
  sectionName : String
  chunkIndex : Nat
  text : List Char
  charLen : Nat
deriving DecidableEq, Repr

/-- Stable ascending insertion by key: `x` goes before the first element of
strictly larger key, after equal keys — the result Python's stable
`list.sort(key=...)` produces. -/
def insertAsc (key : α → Nat) (x : α) : List α → List α
  | [] => [x]
  | b :: l => if key x ≤ key b then x :: b :: l else b :: insertAsc key x l

/-- Model of Python's stable ascending `list.sort(key=...)`. -/
def pySortAsc (key : α → Nat) : List α → List α
  | [] => []
  | x :: xs => insertAsc key x (pySortAsc key xs)

/-- The buffer fold of `merge_short` (lines 44-49): a row whose text is
shorter than `MIN_JOIN` is merged into the last buffered row. -/
def mergeShortFold : List SMRow → List SMRow → List SMRow
  | buf, [] => buf
  | buf, r :: rest =>
    if buf ≠ [] ∧ r.text.length < MIN_JOIN then
      let lastR := buf.getLastD r
      let newText := pyStrip (lastR.text ++ ' ' :: r.text)
      mergeShortFold (buf.dropLast ++ [{ lastR with text := newText, charLen := newText.length }])
        rest
    else
      mergeShortFold (buf ++ [r]) rest

/-- The reindex loop of `merge_short` (lines 50-51):
`for i, r in enumerate(buf): r["chunk_index"] = i`. -/
def reindexRows : Nat → List SMRow → List SMRow
  | _, [] => []
  | i, r :: rest => { r with chunkIndex := i } :: reindexRows (i + 1) rest

/-- `merge_short` applied to the rows of one (case_uid, section_name) group
(lines 42-51): sort by `chunk_index`, merge short rows into their
predecessor, then reassign `chunk_index = 0..n-1`. -/
def mergeShortGroup (lst : List SMRow) : List SMRow :=
  reindexRows 0 (mergeShortFold [] (pySortAsc (·.chunkIndex) lst))

/-!
The per-chunk hash of `data/raw/clean_to_chunks_v2.py`.
-/

/-- The f-string hashed for the `hash` field of a chunk record in
`clean_to_chunks_v2.main` (line 184): `f"\x7buid\x7d|\x7bsec\x7d|\x7bci\x7d|\x7blen(ch)\x7d"` —
note that it interpolates the chunk's length, not its text. -/
def chunkHashInput (uid sec : String) (ci : Nat) (ch : String) : String :=
  uid ++ "|" ++ sec ++ "|" ++ toString ci ++ "|" ++ toString ch.length

/-!
`build_faiss_index.py`: the persisted id array and metadata rows, and the
retriever-side lookup `meta[int(ids[ix])]` of `rag_server.faiss_search`.
-/

/-- A row returned by `fetch_chunks` in `build_faiss_index.py` (lines 39-51):
the database primary key `id` of `precedent_chunks` plus the joined fields. -/
structure DbRow where
  id : Nat
  precedentId : Nat
  sectionName : String
  chunkIndex : Nat
  text : String
  caseNo : String
deriving DecidableEq, Repr

/-- A metadata row of `meta.jsonl` as written by `build_faiss_index.main`
(lines 77-85) and read back by `rag_server.load_meta`. -/
structure Meta where
  id : Nat
  precedentId : Nat
  caseNo : String
  sectionName : String
  chunkIndex : Nat
deriving DecidableEq, Repr

/-- The metadata record written for one fetched row
(`build_faiss_index.main` lines 78-85). -/
def rowMeta (r : DbRow) : Meta :=
  { id := r.id, precedentId := r.precedentId, caseNo := r.caseNo,
    sectionName := r.sectionName, chunkIndex := r.chunkIndex }

/-- The persisted `ids.npy` array: `np.array([r["id"] for r in rows])`
(`build_faiss_index.main` line 75). -/
def buildIds (rows : List DbRow) : List Nat :=
  rows.map (·.id)

/-- The persisted `meta.jsonl` rows, in fetch order
(`build_faiss_index.main` lines 77-85). -/
def buildMeta (rows : List DbRow) : List Meta :=
  rows.map rowMeta

/-- The retriever's metadata lookup for FAISS row `ix`:
`m = meta[int(ids[ix])]` (`rag_server.faiss_search` line 104), composed with
the artifacts the index build persists.  `none` models Python's
`IndexError`. -/
def faissMetaLookup (rows : List DbRow) (ix : Nat) : Option Meta :=
  ((buildIds rows)[ix]?).bind fun i => (buildMeta rows)[i]?

/-!
`rag_server.py`: section weighting, ranking, reranking, diversification.
-/

/-- The section weight table `PREFERRED_SECTIONS` of `rag_server.py`
(lines 35-40); float literals are modelled exactly as rationals. -/
def PREFERRED_SECTIONS (s : String) : Option ℚ :=
  if s = "이유" then some 2
  else if s = "판시사항" then some (3 / 2)
  else if s = "요지" then some (6 / 5)
  else if s = "주문" then some (4 / 5)
  else none

/-- The weight applied to a hit:
`PREFERRED_SECTIONS.get((m.get("section_name") or "").strip(), 1.0)`
(`rag_server.faiss_search` lines 106-107). -/
def sectionWeight (m : Meta) : ℚ :=
  (PREFERRED_SECTIONS (pyStripS m.sectionName)).getD 1

/-- `rag_server._pick_text_field` (lines 85-93): the metadata rows persisted
by `build_faiss_index` carry none of the five text keys the fallback chain
probes, so for this repository's artifacts every probe misses and the
result is the empty string. -/
def pickTextField (_ : Meta) : List Char := []

/-- One entry of the `out` list built by `faiss_search` (lines 100-112).
`raw` (the FAISS similarity before weighting) and `pos` (the position in the
FAISS result at which the entry was appended) are specification ghosts used
to state the ordering contract; the dict itself carries `score`, the
metadata fields, and `text`. -/
structure SHit where
  score : ℚ
  raw : ℚ
  pos : Nat
  m : Meta
  text : List Char
deriving DecidableEq, Repr

/-- The accumulation loop of `faiss_search` (lines 100-112) over the FAISS
result lists `D[0]` (scores) and `I[0]` (indices): negative indices are
skipped; for a kept index the lookup `meta[int(ids[ix])]` either resolves
(and the hit gets the section-weighted score) or is out of range — then
Python raises `IndexError` and the whole call produces nothing, which
`none` models. -/
def faissHits (meta : List Meta) (ids : List Nat) : List ℚ → List Int → Nat → Option (List SHit)
  | s :: ss, ix :: ixs, pos =>
    if ix < 0 then faissHits meta ids ss ixs (pos + 1)
    else
      match (ids[ix.toNat]?).bind (fun i => meta[i]?) with
      | none => none
      | some m =>
        (faissHits meta ids ss ixs (pos + 1)).map
          (fun rest =>
            { score := s * sectionWeight m, raw := s, pos := pos, m := m,
              text := pickTextField m } :: rest)
  | _, _, _ => some []

/-- Stable descending insertion by key: `x` goes before the first element of
key less than or equal to its own — the placement Python's stable
`list.sort(key=..., reverse=True)` produces. -/
def insertDesc (key : α → ℚ) (x : α) : List α → List α
  | [] => [x]
  | b :: l => if key b ≤ key x then x :: b :: l else b :: insertDesc key x l

/-- Model of Python's stable `list.sort(key=..., reverse=True)`. -/
def pySortDesc (key : α → ℚ) : List α → List α
  | [] => []
  | x :: xs => insertDesc key x (pySortDesc key xs)

/-- `rag_server.faiss_search` (lines 95-114): build the candidate list and
sort it descending by weighted score (`out.sort(key=..., reverse=True)`,
a stable sort); `none` propagates an `IndexError` raised by the metadata
lookup of some hit. -/
def faiss_search (meta : List Meta) (ids : List Nat) (scores : List ℚ) (idxs : List Int) :
    Option (List SHit) :=
  (faissHits meta ids scores idxs 0).map (pySortDesc (·.score))

/-- A candidate dict as consumed by `rerank_if_enabled` (the keys it
reads and writes). -/
structure RCand where
  caseNo : List Char
  text : List Char
  score : ℚ
  rerankScore : Option ℚ
deriving DecidableEq, Repr

/-- `rag_server.rerank_if_enabled` (lines 116-130).  `computeScore` stands
for `reranker.compute_score` on the query-text pairs.  The merged dict
`\x7b"rerank_score": sc, **c\x7d` keeps `c`'s own value when present, which
`Option.getD` reproduces; the sort key reads the always-present merged
field. -/
def rerank_if_enabled (useReranker : Bool)
    (computeScore : List (List Char × List Char) → List ℚ)
    (query : List Char) (candidates : List RCand) (topK : Nat) : List RCand :=
  if !useReranker then candidates.take topK
  else
    let clean := candidates.filter (fun c => !c.text.isEmpty)
    if clean.isEmpty then candidates.take topK
    else
      let pairs := clean.map (fun c => (query, c.text))
      let scores := computeScore pairs
      let ranked := pySortDesc (fun rc => rc.rerankScore.getD 0)
        ((scores.zip clean).map (fun sc => { sc.2 with rerankScore := some (sc.2.rerankScore.getD sc.1) }))
      ranked.take topK

/-- `rag_server.diversify_by_case` loop body (lines 132-144), generic in the
candidate record with `caseNoOf` projecting `c.get("case_no")` (the empty
list models both a missing and an empty case number, both falsy). -/
def diversifyGo (caseNoOf : α → List Char) (limit : Int) :
    List α → List (List Char) → List α → List α
  | [], _, picked => picked
  | c :: rest, seen, picked =>
    let cn := caseNoOf c
    if cn = [] ∨ cn ∈ seen then diversifyGo caseNoOf limit rest seen picked
    else
      let seen2 := cn :: seen
      let picked2 := picked ++ [c]
      if limit ≤ (picked2.length : Int) then picked2
      else diversifyGo caseNoOf limit rest seen2 picked2

/-- `rag_server.diversify_by_case` (lines 132-144). -/
def diversify_by_case (caseNoOf : α → List Char) (cands : List α) (limit : Int) : List α :=
  diversifyGo caseNoOf limit cands [] []

/-- The subsequence of candidates whose (non-empty) case number has not
occurred earlier — the no-limit core of `diversify_by_case`, used to state
its characterisation. -/
def firstOccGo (caseNoOf : α → List Char) : List α → List (List Char) → List α
  | [], _ => []
  | c :: rest, seen =>
    let cn := caseNoOf c
    if cn = [] ∨ cn ∈ seen then firstOccGo caseNoOf rest seen
    else c :: firstOccGo caseNoOf rest (cn :: seen)

/-- First occurrence of each non-empty case number, in ranked order. -/
def firstOccByCase (caseNoOf : α → List Char) (cands : List α) : List α :=
  firstOccGo caseNoOf cands []

/-!
`rag_server.postprocess_answer` (lines 203-223): the three `re.sub` passes
and the reference-tail step.  Each regex of the source is embedded as a
deterministic scanner; the patterns involved (`^\s*#\x7b1,6\x7d\s*` with
MULTILINE, the case-number label pattern, `\n\x7b3,\x7d`) backtrack only
trivially, so maximal-munch scanning reproduces `re.sub` exactly.
-/

/-- Length matched by `^\s*#\x7b1,6\x7d\s*` at a line start (whitespace may span
newlines; the match exists exactly when the maximal whitespace run is
followed by `#`, of which at most six are consumed, then trailing
whitespace). -/
def headMatchLen (l : List Char) : Option Nat :=
  let w1 := (l.takeWhile pyIsSpace).length
  if l.getD w1 '?' == '#' then
    let nh := min (((l.drop w1).takeWhile (· == '#')).length) 6
    let w2 := (((l.drop (w1 + nh))).takeWhile pyIsSpace).length
    some (w1 + nh + w2)
  else none

/-- One `re.sub` pass of the MULTILINE heading pattern (postprocess step 1,
line 206): scan the string one character at a time; at every line start try
the match and, when it succeeds with length `n`, drop those `n` characters
(the positive `skip` counter counts the characters of a match still to be
dropped).  `atLS` records whether the current position is a line start of
the original string (position 0 or preceded by a newline); a match always
consumes at least one character, so the scan advances. -/
def sub1Go : List Char → Bool → Nat → List Char
  | [], _, _ => []
  | c :: rest, _, Nat.succ k => sub1Go rest (c == '\n') k
  | c :: rest, atLS, 0 =>
    if atLS then
      match headMatchLen (c :: rest) with
      | some n => sub1Go rest (c == '\n') (n - 1)
      | none => c :: sub1Go rest (c == '\n') 0
    else c :: sub1Go rest (c == '\n') 0

/-- Postprocess step 1: strip leading markdown heading markers
(`re.sub` with MULTILINE `^`, which matches at position 0). -/
def sub1 (l : List Char) : List Char := sub1Go l true 0

/-- Consumed length of the optional group `(?:\s*·\s*섹션\s*:\s*\S+)?` at the
head of `l` (0 when the group does not match). -/
def groupSectionLen (l : List Char) : Nat :=
  let w1 := (l.takeWhile pyIsSpace).length
  if l.getD w1 '?' == '·' then
    let w2 := ((l.drop (w1 + 1)).takeWhile pyIsSpace).length
    let p := w1 + 1 + w2
    if l.getD p '?' == '섹' && l.getD (p + 1) '?' == '션' then
      let w3 := ((l.drop (p + 2)).takeWhile pyIsSpace).length
      let q := p + 2 + w3
      if l.getD q '?' == ':' then
        let w4 := ((l.drop (q + 1)).takeWhile pyIsSpace).length
        let tok := ((l.drop (q + 1 + w4)).takeWhile (fun c => !pyIsSpace c)).length
        if tok == 0 then 0 else q + 1 + w4 + tok
      else 0
    else 0
  else 0

/-- Consumed length of the optional group `(?:\s*·\s*청크\s*:\s*\d+)?` at the
head of `l` (0 when the group does not match). -/
def groupChunkLen (l : List Char) : Nat :=
  let w1 := (l.takeWhile pyIsSpace).length
  if l.getD w1 '?' == '·' then
    let w2 := ((l.drop (w1 + 1)).takeWhile pyIsSpace).length
    let p := w1 + 1 + w2
    if l.getD p '?' == '청' && l.getD (p + 1) '?' == '크' then
      let w3 := ((l.drop (p + 2)).takeWhile pyIsSpace).length
      let q := p + 2 + w3
      if l.getD q '?' == ':' then
        let w4 := ((l.drop (q + 1)).takeWhile pyIsSpace).length
        let tok := ((l.drop (q + 1 + w4)).takeWhile (fun c => c.isDigit)).length
        if tok == 0 then 0 else q + 1 + w4 + tok
      else 0
    else 0
  else 0

/-- Length consumed after the literal `사건번호` by
`\s*:\s*\S+(?:\s*·\s*섹션\s*:\s*\S+)?(?:\s*·\s*청크\s*:\s*\d+)?`
(`none` when the mandatory part fails). -/
def labelTailLen (r0 : List Char) : Option Nat :=
  let w1 := (r0.takeWhile pyIsSpace).length
  if r0.getD w1 '?' == ':' then
    let w2 := ((r0.drop (w1 + 1)).takeWhile pyIsSpace).length
    let tok := ((r0.drop (w1 + 1 + w2)).takeWhile (fun c => !pyIsSpace c)).length
    if tok == 0 then none
    else
      let p1 := w1 + 1 + w2 + tok
      let g1 := groupSectionLen (r0.drop p1)
      let g2 := groupChunkLen (r0.drop (p1 + g1))
      some (p1 + g1 + g2)
  else none

/-- One `re.sub` pass of the case-number label pattern (postprocess step 2,
line 208): at each position, if the literal `사건번호` followed by the rest
of the pattern matches (total length `4 + n`), drop the match — one character
now, the remaining `4 + n - 1` through the skip counter — and continue after
it; otherwise copy one character. -/
def sub2Go : List Char → Nat → List Char
  | [], _ => []
  | _ :: rest, Nat.succ k => sub2Go rest k
  | '사' :: '건' :: '번' :: '호' :: r0, 0 =>
    match labelTailLen r0 with
    | some n => sub2Go ('건' :: '번' :: '호' :: r0) (4 + n - 1)
    | none => '사' :: sub2Go ('건' :: '번' :: '호' :: r0) 0
  | c :: rest, 0 => c :: sub2Go rest 0

/-- Postprocess step 3 (line 210): `re.sub(r'\n\x7b3,\x7d', '\n\n', ans)` —
collapse every maximal run of three or more newlines to exactly two (the
run of length `k` is dropped through the skip counter after the two
replacement newlines are emitted). -/
def sub3Go : List Char → Nat → List Char
  | [], _ => []
  | _ :: rest, Nat.succ k => sub3Go rest k
  | '\n' :: rest, 0 =>
    let k := 1 + (rest.takeWhile (· == '\n')).length
    if 3 ≤ k then '\n' :: '\n' :: sub3Go rest (k - 1)
    else '\n' :: sub3Go rest 0
  | c :: rest, 0 => c :: sub3Go rest 0

/-- The cleanup phase of `postprocess_answer` (steps 1-3, lines 205-210):
heading strip, label strip, newline collapse, final `strip()`. -/
def ppClean (l : List Char) : List Char :=
  pyStrip (sub3Go (sub2Go (sub1 l) 0) 0)

/-- A member of the `picked` SelectionSet as read by `postprocess_answer`
and `build_prompt` (the `case_no` key; `[]` models a missing or empty
value, both falsy). -/
structure PCand where
  caseNo : List Char
deriving DecidableEq, Repr

/-- The unique, order-preserving case-number extraction of
`postprocess_answer` (lines 213-219). -/
def uniqCasesGo : List (List Char) → List PCand → List (List Char)
  | _, [] => []
  | seen, r :: rest =>
    let c := r.caseNo
    if c ≠ [] ∧ c ∉ seen then c :: uniqCasesGo (c :: seen) rest
    else uniqCasesGo seen rest

/-- `uniq_cases` of `postprocess_answer`. -/
def uniqCases (picked : List PCand) : List (List Char) :=
  uniqCasesGo [] picked

/-- The reference tail `f"(참고: \x7b', '.join(uniq_cases)\x7d)"` (line 220),
empty when `uniq_cases` is empty. -/
def refTail (uniq : List (List Char)) : List Char :=
  if uniq = [] then []
  else '(' :: '참' :: '고' :: ':' :: ' ' :: (List.intercalate [',', ' '] uniq ++ [')'])

/-- `rag_server.postprocess_answer` (lines 203-223). -/
def postprocess_answer (ans : List Char) (picked : List PCand) : List Char :=
  let a3 := ppClean ans
  let tail := refTail (uniqCases picked)
  if tail ≠ [] ∧ pyContains a3 tail = false then a3 ++ '\n' :: tail else a3

/-!
Request validation phases: `rag_server.rag` (lines 228-245) and
`app.rag_api` (lines 175-192), modelled up to the first provider call.
-/

/-- `TOP_K` default of `rag_server.py` (line 30, env default "5"). -/
def TOP_K : Int := 5

/-- Outcome of a handler before its first provider (network) call: either an
early 400 response or the embedding call with the values that reach it. -/
inductive RagPhase where
  | validationError : String → RagPhase
  | embedCall : String → Int → RagPhase
deriving DecidableEq, Repr

/-- `rag_server.rag` up to its first provider call (lines 231-238):
`top_k = int(body.get("top_k") or TOP_K)` (absent or 0 falls back to the
default; any other value, negative included, is kept), then only the
emptiness of the stripped question is checked before `encode_query`. -/
def ragServerPhase (question : Option String) (topK : Option Int) : RagPhase :=
  let q := pyStripS (question.getD "")
  let k : Int := match topK with
    | none => TOP_K
    | some v => if v = 0 then TOP_K else v
  if q = "" then .validationError "question is required"
  else .embedCall q k

/-- `app.rag_api` up to its first provider call (lines 177-190): the
data-presence guard, then empty-question and non-positive `top_k`
validation, all before `ollama_embed`. -/
def appRagPhase (dfLen docEmbLen : Nat) (question : Option String)
    (topK maxChars : Option Int) : RagPhase :=
  if dfLen = 0 ∨ docEmbLen = 0 then .validationError "no data"
  else
    let q := pyStripS (question.getD "")
    let k := topK.getD 3
    let _mc := maxChars.getD 700
    if q = "" then .validationError "question required"
    else if k ≤ 0 then .validationError "top_k must be > 0"
    else .embedCall q k

/-!
Concrete inputs used by the counterexample and witness theorems below.
-/

/-- A 349-character sentence (one character below `MIN_CHARS`). -/
def exSentA : List Char := List.replicate 349 'a'

/-- A 1600-character sentence (exactly `HARD_MAX`, so it is not
force-split). -/
def exSentB : List Char := List.replicate 1600 'b'

/-- A 1100-character sentence. -/
def exT1 : List Char := List.replicate 1100 'a'

/-- A 1150-character sentence. -/
def exT2 : List Char := List.replicate 1150 'b'

def exBm1 : BaseMeta := { uid := "u1", caseNo := "2020드단1", title := "", court := "", judgmentDate := "" }

def exBm2 : BaseMeta := { uid := "u2", caseNo := "2020드단2", title := "", court := "", judgmentDate := "" }

/-- Two (section, chunk-list) groups for the dedup pass: the single chunk of
the first group reappears as the first chunk of the second group. -/
def exGroups : List (String × List ChunkItem) :=
  [("주문", make_chunks_from_text exBm1 "주문" [exT1]),
   ("주문", make_chunks_from_text exBm2 "주문" [exT1, exT2])]

/-- Database rows with the auto-increment primary keys 1 and 2 (a MariaDB
auto-increment column starts at 1). -/
def exRow0 : DbRow :=
  { id := 1, precedentId := 10, sectionName := "이유", chunkIndex := 0,
    text := "이혼 사유에 관한 판단 텍스트", caseNo := "2020드단11111" }

def exRow1 : DbRow :=
  { id := 2, precedentId := 10, sectionName := "주문", chunkIndex := 0,
    text := "원고와 피고는 이혼한다", caseNo := "2020드단11111" }

def exRows : List DbRow := [exRow0, exRow1]

/-- A metadata row for the retriever witness, with position-aligned id
array `[0]` so that the lookup succeeds. -/
def exMW : Meta :=
  { id := 7, precedentId := 10, caseNo := "A", sectionName := "이유", chunkIndex := 0 }

/-- The single hit `faiss_search` produces for `exMW` with raw similarity 9
at FAISS row 0 (the score is left in the unreduced `raw * weight` form the
loop builds). -/
def exOut4 : List SHit :=
  [{ score := 9 * sectionWeight exMW, raw := 9, pos := 0, m := exMW,
     text := pickTextField exMW }]

/-- Raw answer containing the reference line in the middle of the text. -/
def exAns5 : List Char := "(참고: A)\n본문".data

def exPicked5 : List PCand := [⟨"A".data⟩]

/-- Raw answer for the C5 witness. -/
def exAns5w : List Char := "법원의 판단 요지입니다.".data

/-- Raw answer on which the label-removal regex is not idempotent: removing
the leftmost label match splices the surrounding characters into a new
label occurrence that only the second pass removes. -/
def exAns9 : List Char := "사건번사건번호 : A ·청크: 12호: B".data

def exPicked9 : List PCand := [⟨"X".data⟩]

/-- Raw answer for the C9 witness. -/
def exAns9w : List Char := "답변 본문입니다.".data

/-- Candidates for the diversifier: B appears twice, once with top rank. -/
def exPC : List PCand := [⟨"B".data⟩, ⟨"A".data⟩, ⟨"B".data⟩, ⟨[]⟩, ⟨"C".data⟩]

def exPCOne : List PCand := [⟨"A".data⟩]

/-- Candidates for the rerank fallback: all of them lack text. -/
def exRCands : List RCand :=
  [{ caseNo := "A".data, text := [], score := 9/10, rerankScore := none },
   { caseNo := "B".data, text := [], score := 1/2, rerankScore := none }]

/-- A reranker stub for closed instances. -/
def exScorer : List (List Char × List Char) → List ℚ := fun _ => []

/-!
Helper lemmas.
-/

theorem pyStartsWith_nil (h : List Char) : pyStartsWith h [] = true := by
  cases h <;> rfl

theorem pyStartsWith_append (n r : List Char) : pyStartsWith (n ++ r) n = true := by
  induction n with
  | nil => exact pyStartsWith_nil r
  | cons a as ih => simp [pyStartsWith, ih]

theorem pyContains_append_self (x n : List Char) : pyContains (x ++ n) n = true := by
  induction x with
  | nil =>
    cases n with
    | nil => rfl
    | cons a as =>
      have h : pyStartsWith ((a :: as) ++ []) (a :: as) = true := pyStartsWith_append _ _
      simp only [List.append_nil] at h
      simp [pyContains, h]
  | cons c cs ih =>
    cases n with
    | nil => simp [pyContains, pyStartsWith]
    | cons a as => simp [pyContains, ih]

theorem refTail_ne_nil (u : List (List Char)) (hu : u ≠ []) : refTail u ≠ [] := by
  unfold refTail
  simp [hu]

/-- The reference tail always occurs in the postprocessed answer when the
SelectionSet contributes at least one case number (shared by the C5 and C9
theorems). -/
theorem pp_tail_occurs (ans : List Char) (picked : List PCand)
    (hu : uniqCases picked ≠ []) :
    pyContains (postprocess_answer ans picked) (refTail (uniqCases picked)) = true := by
  unfold postprocess_answer
  simp only []
  split
  · rename_i hcond
    have : ppClean ans ++ '\n' :: refTail (uniqCases picked) =
        (ppClean ans ++ ['\n']) ++ refTail (uniqCases picked) := by
      simp
    rw [this]
    exact pyContains_append_self _ _
  · rename_i hcond
    rw [not_and_or] at hcond
    rcases hcond with h1 | h2
    · exact absurd (refTail_ne_nil _ hu) (by simpa using h1)
    · simpa using h2

theorem enumChunkItems_length (bm : BaseMeta) (sec : String) (i : Nat) (ts : List (List Char)) :
    (enumChunkItems bm sec i ts).length = ts.length := by
  induction ts generalizing i with
  | nil => rfl
  | cons t ts ih => simp [enumChunkItems, ih]

theorem enumChunkItems_map_chunkIndex (bm : BaseMeta) (sec : String) (i : Nat)
    (ts : List (List Char)) :
    (enumChunkItems bm sec i ts).map (·.chunkIndex) = (List.range ts.length).map (· + i) := by
  induction ts generalizing i with
  | nil => rfl
  | cons t ts ih =>
    simp only [enumChunkItems, List.map_cons, List.length_cons, List.range_succ_eq_map,
      List.map_map, ih]
    congr 1
    · omega
    · congr 1
      funext x
      simp only [Function.comp]
      omega

theorem reindexRows_length (i : Nat) (rs : List SMRow) :
    (reindexRows i rs).length = rs.length := by
  induction rs generalizing i with
  | nil => rfl
  | cons r rs ih => simp [reindexRows, ih]

theorem reindexRows_map_chunkIndex (i : Nat) (rs : List SMRow) :
    (reindexRows i rs).map (·.chunkIndex) = (List.range rs.length).map (· + i) := by
  induction rs generalizing i with
  | nil => rfl
  | cons r rs ih =>
    simp only [reindexRows, List.map_cons, List.length_cons, List.range_succ_eq_map,
      List.map_map, ih]
    congr 1
    · omega
    · congr 1
      funext x
      simp only [Function.comp]
      omega

theorem diversifyGo_eq {α : Type} (f : α → List Char) (limit : Int) :
    ∀ (l : List α) (seen : List (List Char)) (picked : List α),
      diversifyGo f limit l seen picked =
        picked ++ (firstOccGo f l seen).take (max (limit - picked.length).toNat 1) := by
  intro l
  induction l with
  | nil => intro seen picked; simp [diversifyGo, firstOccGo]
  | cons c rest ih =>
    intro seen picked
    simp only [diversifyGo, firstOccGo]
    split
    · exact ih seen picked
    · split
      · rename_i hbreak
        have hk : max (limit - (picked.length : Int)).toNat 1 = 1 := by
          simp only [List.length_append, List.length_cons, List.length_nil] at hbreak
          omega
        rw [hk]
        simp
      · rename_i hnb
        rw [ih]
        have hk : max (limit - (picked.length : Int)).toNat 1 =
            max (limit - ((picked ++ [c]).length : Int)).toNat 1 + 1 := by
          simp only [List.length_append, List.length_cons, List.length_nil] at *
          push_cast at *
          omega
        rw [hk]
        simp [List.take_succ_cons]

theorem firstOccGo_sublist {α : Type} (f : α → List Char) :
    ∀ (l : List α) (seen : List (List Char)), List.Sublist (firstOccGo f l seen) l := by
  intro l
  induction l with
  | nil => intro seen; simp [firstOccGo]
  | cons c rest ih =>
    intro seen
    simp only [firstOccGo]
    split
    · exact (ih seen).cons c
    · exact (ih _).cons₂ c

theorem firstOccGo_mem {α : Type} (f : α → List Char) :
    ∀ (l : List α) (seen : List (List Char)) (x : α), x ∈ firstOccGo f l seen →
      f x ≠ [] ∧ f x ∉ seen := by
  intro l
  induction l with
  | nil => intro seen x hx; simp [firstOccGo] at hx
  | cons c rest ih =>
    intro seen x hx
    simp only [firstOccGo] at hx
    split at hx
    · exact ih seen x hx
    · rename_i hcond
      push_neg at hcond
      rcases List.mem_cons.mp hx with rfl | hx2
      · exact ⟨hcond.1, hcond.2⟩
      · have h2 := ih _ x hx2
        exact ⟨h2.1, fun hmem => h2.2 (List.mem_cons_of_mem _ hmem)⟩

theorem firstOccGo_pairwise {α : Type} (f : α → List Char) :
    ∀ (l : List α) (seen : List (List Char)),
      (firstOccGo f l seen).Pairwise (fun a b => f a ≠ f b) := by
  intro l
  induction l with
  | nil => intro seen; simp [firstOccGo]
  | cons c rest ih =>
    intro seen
    simp only [firstOccGo]
    split
    · exact ih seen
    · refine List.Pairwise.cons ?_ (ih _)
      intro b hb
      have hm := firstOccGo_mem f rest _ b hb
      intro hfe
      exact hm.2 (by rw [← hfe]; exact List.mem_cons_self _ _)

theorem firstOccGo_head {α : Type} (f : α → List Char) :
    ∀ (l : List α) (seen : List (List Char)) (x : α), x ∈ firstOccGo f l seen →
      (l.filter (fun d => f d == f x)).head? = some x := by
  intro l
  induction l with
  | nil => intro seen x hx; simp [firstOccGo] at hx
  | cons c rest ih =>
    intro seen x hx
    simp only [firstOccGo] at hx
    split at hx
    · rename_i hcond
      have hm := firstOccGo_mem f rest seen x hx
      have hne : (f c == f x) = false := by
        rcases hcond with hnil | hseen
        · simp only [beq_eq_false_iff_ne, ne_eq]
          intro he
          exact hm.1 (by rw [← he, hnil])
        · simp only [beq_eq_false_iff_ne, ne_eq]
          intro he
          exact hm.2 (by rw [← he]; exact hseen)
      rw [List.filter_cons, hne]
      exact ih seen x hx
    · rename_i hcond
      push_neg at hcond
      rcases List.mem_cons.mp hx with rfl | hx2
      · rw [List.filter_cons]
        simp
      · have hm := firstOccGo_mem f rest _ x hx2
        have hne : (f c == f x) = false := by
          simp only [beq_eq_false_iff_ne, ne_eq]
          intro he
          exact hm.2 (by rw [← he]; exact List.mem_cons_self _ _)
        rw [List.filter_cons, hne]
        exact ih _ x hx2

theorem insertDesc_perm {α : Type} (key : α → ℚ) (x : α) (l : List α) :
    List.Perm (insertDesc key x l) (x :: l) := by
  induction l with
  | nil => exact List.Perm.refl _
  | cons b t ih =>
    simp only [insertDesc]
    split
    · exact List.Perm.refl _
    · exact (ih.cons b).trans (List.Perm.swap x b t)

theorem pySortDesc_perm {α : Type} (key : α → ℚ) (l : List α) :
    List.Perm (pySortDesc key l) l := by
  induction l with
  | nil => exact List.Perm.refl _
  | cons x xs ih => exact (insertDesc_perm key x (pySortDesc key xs)).trans (ih.cons x)

/-- The stability invariant carried by the retriever's sort: strictly larger
weighted score first; on equal weighted scores, the earlier FAISS position
first (and, because FAISS returns similarities in descending order, the
earlier position also has the larger raw similarity). -/
def sHitOrd (a b : SHit) : Prop :=
  b.score < a.score ∨ (a.score = b.score ∧ a.pos < b.pos ∧ b.raw ≤ a.raw)

theorem sHitOrd_score_le (a b : SHit) (h : sHitOrd a b) : b.score ≤ a.score := by
  rcases h with h | ⟨h, _⟩
  · exact le_of_lt h
  · exact le_of_eq h.symm

theorem insertDesc_pairwise (x : SHit) (l : List SHit)
    (hl : l.Pairwise sHitOrd)
    (hx : ∀ b ∈ l, x.pos < b.pos ∧ b.raw ≤ x.raw) :
    (insertDesc (·.score) x l).Pairwise sHitOrd := by
  induction l with
  | nil => simp [insertDesc, List.Pairwise.cons]
  | cons b t ih =>
    simp only [insertDesc]
    split
    · rename_i hble
      refine List.Pairwise.cons ?_ hl
      intro y hy
      have hyle : y.score ≤ x.score := by
        rcases List.mem_cons.mp hy with rfl | hyt
        · exact hble
        · exact le_trans (sHitOrd_score_le b y ((List.pairwise_cons.mp hl).1 y hyt)) hble
      rcases lt_or_eq_of_le hyle with hlt | heq
      · exact Or.inl hlt
      · exact Or.inr ⟨heq.symm, (hx y hy).1, (hx y hy).2⟩
    · rename_i hbgt
      push_neg at hbgt
      have hl2 := List.pairwise_cons.mp hl
      refine List.Pairwise.cons ?_ (ih hl2.2 (fun y hy => hx y (List.mem_cons_of_mem _ hy)))
      intro y hy
      have : y = x ∨ y ∈ t := by
        have hp := (insertDesc_perm (·.score) x t).mem_iff.mp hy
        simpa using hp
      rcases this with rfl | hyt
      · exact Or.inl hbgt
      · exact hl2.1 y hyt

theorem pySortDesc_pairwise (l : List SHit)
    (hl : l.Pairwise (fun a b => a.pos < b.pos ∧ b.raw ≤ a.raw)) :
    (pySortDesc (·.score) l).Pairwise sHitOrd := by
  induction l with
  | nil => simp [pySortDesc]
  | cons x xs ih =>
    have hl2 := List.pairwise_cons.mp hl
    refine insertDesc_pairwise x _ (ih hl2.2) ?_
    intro b hb
    exact hl2.1 b ((pySortDesc_perm (·.score) xs).mem_iff.mp hb)

theorem faissHits_pos_le (meta : List Meta) (ids : List Nat) :
    ∀ (ss : List ℚ) (ixs : List Int) (p : Nat) (hits : List SHit),
      faissHits meta ids ss ixs p = some hits → ∀ b ∈ hits, p ≤ b.pos := by
  intro ss
  induction ss with
  | nil =>
    intro ixs p hits hh b hb
    simp only [faissHits, Option.some.injEq] at hh
    subst hh
    simp at hb
  | cons s st ih =>
    intro ixs p hits hh b hb
    cases ixs with
    | nil =>
      simp only [faissHits, Option.some.injEq] at hh
      subst hh
      simp at hb
    | cons ix it =>
      simp only [faissHits] at hh
      split at hh
      · exact le_trans (by omega) (ih it (p + 1) hits hh b hb)
      · split at hh
        · exact absurd hh (by simp)
        · obtain ⟨rest, hrest, hcons⟩ := Option.map_eq_some'.mp hh
          subst hcons
          rcases List.mem_cons.mp hb with rfl | hb2
          · exact le_refl _
          · exact le_trans (by omega) (ih it (p + 1) rest hrest b hb2)

theorem faissHits_score (meta : List Meta) (ids : List Nat) :
    ∀ (ss : List ℚ) (ixs : List Int) (p : Nat) (hits : List SHit),
      faissHits meta ids ss ixs p = some hits →
      ∀ h ∈ hits, h.score = h.raw * sectionWeight h.m := by
  intro ss
  induction ss with
  | nil =>
    intro ixs p hits hh h hmem
    simp only [faissHits, Option.some.injEq] at hh
    subst hh
    simp at hmem
  | cons s st ih =>
    intro ixs p hits hh h hmem
    cases ixs with
    | nil =>
      simp only [faissHits, Option.some.injEq] at hh
      subst hh
      simp at hmem
    | cons ix it =>
      simp only [faissHits] at hh
      split at hh
      · exact ih it (p + 1) hits hh h hmem
      · split at hh
        · exact absurd hh (by simp)
        · obtain ⟨rest, hrest, hcons⟩ := Option.map_eq_some'.mp hh
          subst hcons
          rcases List.mem_cons.mp hmem with rfl | hmem2
          · rfl
          · exact ih it (p + 1) rest hrest h hmem2

theorem faissHits_raw_mem (meta : List Meta) (ids : List Nat) :
    ∀ (ss : List ℚ) (ixs : List Int) (p : Nat) (hits : List SHit),
      faissHits meta ids ss ixs p = some hits → ∀ b ∈ hits, b.raw ∈ ss := by
  intro ss
  induction ss with
  | nil =>
    intro ixs p hits hh b hb
    simp only [faissHits, Option.some.injEq] at hh
    subst hh
    simp at hb
  | cons s st ih =>
    intro ixs p hits hh b hb
    cases ixs with
    | nil =>
      simp only [faissHits, Option.some.injEq] at hh
      subst hh
      simp at hb
    | cons ix it =>
      simp only [faissHits] at hh
      split at hh
      · exact List.mem_cons_of_mem _ (ih it (p + 1) hits hh b hb)
      · split at hh
        · exact absurd hh (by simp)
        · obtain ⟨rest, hrest, hcons⟩ := Option.map_eq_some'.mp hh
          subst hcons
          rcases List.mem_cons.mp hb with rfl | hb2
          · exact List.mem_cons_self _ _
          · exact List.mem_cons_of_mem _ (ih it (p + 1) rest hrest b hb2)

theorem faissHits_pairwise_raw (meta : List Meta) (ids : List Nat) :
    ∀ (ss : List ℚ) (ixs : List Int) (p : Nat) (hits : List SHit), ss.Pairwise (· ≥ ·) →
      faissHits meta ids ss ixs p = some hits →
      hits.Pairwise (fun a b => a.pos < b.pos ∧ b.raw ≤ a.raw) := by
  intro ss
  induction ss with
  | nil =>
    intro ixs p hits _ hh
    simp only [faissHits, Option.some.injEq] at hh
    subst hh
    simp
  | cons s st ih =>
    intro ixs p hits hs hh
    have hs2 := List.pairwise_cons.mp hs
    cases ixs with
    | nil =>
      simp only [faissHits, Option.some.injEq] at hh
      subst hh
      simp
    | cons ix it =>
      simp only [faissHits] at hh
      split at hh
      · exact ih it (p + 1) hits hs2.2 hh
      · split at hh
        · exact absurd hh (by simp)
        · obtain ⟨rest, hrest, hcons⟩ := Option.map_eq_some'.mp hh
          subst hcons
          refine List.Pairwise.cons ?_ (ih it (p + 1) rest hs2.2 hrest)
          intro b hb
          refine ⟨?_, ?_⟩
          · have := faissHits_pos_le meta ids st it (p + 1) rest hrest b hb
            simp only []
            omega
          · exact hs2.1 b.raw (faissHits_raw_mem meta ids st it (p + 1) rest hrest b hb)

/-!
Claim theorems.
-/

/-- C1: the claim states that position `i` of the persisted id array holds
the metadata-row number of the chunk at index row `i`, so that
`meta[ids[i]]` returns that chunk's metadata.  Evaluating the build and the
retriever lookup on two fetched rows whose auto-increment primary keys are
1 and 2 shows the code violating this: the id array stores the database
primary keys, so `meta[ids[0]]` returns row 1's metadata instead of
row 0's, and `meta[ids[1]]` is out of range.  The length half of the claim
does hold. -/
theorem C1_id_alignment_eval :
    (buildIds exRows).length = (buildMeta exRows).length ∧
    faissMetaLookup exRows 0 = some (rowMeta exRow1) ∧
    rowMeta exRow1 ≠ rowMeta exRow0 ∧
    faissMetaLookup exRows 1 = none := by
  exact ⟨by decide, by decide, by decide, by decide⟩

/-- C2: the claim states every emitted chunk has length at most `HARD_MAX`
(1600), without exception.  Evaluating the chunker on the sentence list
[349 × 'a', 1600 × 'b'] (obtainable from the raw text `'a'*349 + '\n' +
'b'*1600`) shows the force-append rule emitting a 1950-character chunk:
the 349-character buffer is below `MIN_CHARS`, the force-append makes it
1950 characters, and the overshoot flush emits it unsplit. -/
theorem C2_hard_max_eval :
    (make_chunks_from_text exBm1 "판례내용" [exSentA, exSentB]).map (·.chars) = [1950, 1600] ∧
    lcHARD_MAX < 1950 := by
  exact ⟨by decide, by decide⟩

/-- C3 counterexample: the claim states that `chunk_index` values within a
(case, section) group stay contiguous and zero-based after deduplication.
Running the emission pass of `law_chunker.main` on two groups whose second
group starts with a chunk textually identical to the first group's chunk,
the duplicate is dropped after indices were assigned: the second group's
persisted indices are `[1]`, not the contiguous `[0]`. -/
theorem C3_counterexample :
    (lawChunkerRun (fun s => s) exGroups).map (fun es => es.map (·.item.chunkIndex)) =
      [[0], [1]] ∧
    [1] ≠ List.range 1 := by
  exact ⟨by decide, by decide⟩

/-- C3 (amended): `chunk_index` values within a group are the contiguous
sequence 0..n-1 as assigned by `make_chunks_from_text`, and
`short_merge.merge_short` reassigns them to 0..n-1 after merging; but
`law_chunker.main`'s deduplication drops chunks after the indices are
assigned, so a group that loses a duplicate keeps its original indices and
the sequence has gaps (see the counterexample). -/
theorem C3_chunk_index_contiguous (g : List SMRow) (bm : BaseMeta) (sec : String)
    (sents : List (List Char)) :
    (mergeShortGroup g).map (·.chunkIndex) = List.range (mergeShortGroup g).length ∧
    (make_chunks_from_text bm sec sents).map (·.chunkIndex) =
      List.range (make_chunks_from_text bm sec sents).length := by
  constructor
  · unfold mergeShortGroup
    rw [reindexRows_map_chunkIndex, reindexRows_length]
    simp
  · unfold make_chunks_from_text
    rw [enumChunkItems_map_chunkIndex, enumChunkItems_length]
    simp

/-- C4: under the FAISS contract that `index.search` returns similarities in
descending order, every run of `faiss_search` that completes without an
`IndexError` (that is, returns `some out`) assigns every hit the weighted
score `raw * weight(section)` (weight 1 for unlisted sections), and `out`
is a permutation of the hit list sorted descending by weighted score, ties
broken by original similarity and then by insertion order. -/
theorem C4_weighted_ranking (meta : List Meta) (ids : List Nat) (scores : List ℚ)
    (idxs : List Int) (out : List SHit)
    (hsorted : scores.Pairwise (· ≥ ·))
    (hout : faiss_search meta ids scores idxs = some out) :
    (∀ h ∈ out, h.score = h.raw * sectionWeight h.m) ∧
    (∃ hits, faissHits meta ids scores idxs 0 = some hits ∧ List.Perm out hits) ∧
    out.Pairwise (fun a b =>
      b.score < a.score ∨ (a.score = b.score ∧
        (b.raw < a.raw ∨ (a.raw = b.raw ∧ a.pos < b.pos)))) := by
  unfold faiss_search at hout
  obtain ⟨hits, hhits, hsort⟩ := Option.map_eq_some'.mp hout
  subst hsort
  refine ⟨?_, ⟨hits, hhits, pySortDesc_perm _ _⟩, ?_⟩
  · intro h hh
    exact faissHits_score meta ids scores idxs 0 hits hhits h
      ((pySortDesc_perm (fun x => x.score) hits).mem_iff.mp hh)
  · have hp := pySortDesc_pairwise hits
      (faissHits_pairwise_raw meta ids scores idxs 0 hits hsorted hhits)
    refine hp.imp ?_
    intro a b hab
    rcases hab with h | ⟨he, hp2, hr⟩
    · exact Or.inl h
    · rcases lt_or_eq_of_le hr with h2 | h2
      · exact Or.inr ⟨he, Or.inl h2⟩
      · exact Or.inr ⟨he, Or.inr ⟨h2.symm, hp2⟩⟩

/-- Witness for C4 at a concrete in-range FAISS result: the search completes
with the single weighted hit of `exOut4` and the theorem applies to it. -/
theorem C4_witness :
    faiss_search [exMW] [0] [9] [0] = some exOut4 ∧
    (∀ h ∈ exOut4, h.score = h.raw * sectionWeight h.m) :=
  ⟨rfl, (C4_weighted_ranking [exMW] [0] [9] [0] exOut4 (by decide) rfl).1⟩

/-- C5 counterexample: the claim states the postprocessed output ends with
the reference line.  When the raw text already contains the reference line
in its middle, the `tail not in ans` guard suppresses the append and the
output does not end with the line. -/
theorem C5_counterexample :
    uniqCases exPicked5 ≠ [] ∧
    postprocess_answer exAns5 exPicked5 = exAns5 ∧
    ¬ List.IsSuffix (refTail (uniqCases exPicked5)) (postprocess_answer exAns5 exPicked5) := by
  exact ⟨by decide, by decide, by decide⟩

/-- C5 (amended): for a non-empty SelectionSet the postprocessed output
always contains the reference line — it is appended at the end exactly when
the cleaned text does not already contain it; an occurrence anywhere in the
text suppresses the append, so the output need not end with the line. -/
theorem C5_reference_line (ans : List Char) (picked : List PCand)
    (hu : uniqCases picked ≠ []) :
    pyContains (postprocess_answer ans picked) (refTail (uniqCases picked)) = true :=
  pp_tail_occurs ans picked hu

/-- Witness for C5 at a concrete raw answer and SelectionSet. -/
theorem C5_witness :
    pyContains (postprocess_answer exAns5w exPicked5) (refTail (uniqCases exPicked5)) = true :=
  C5_reference_line exAns5w exPicked5 (by decide)

/-- C6: the claim states the persisted hash is a content hash, so chunks at
the same (case, section, index) position with different text never share a
hash.  The hash input of `clean_to_chunks_v2.main` interpolates `len(ch)`
instead of the chunk text, so two different equal-length texts at the same
position produce identical hash inputs — hence identical hashes under any
hash function. -/
theorem C6_hash_ignores_text :
    chunkHashInput "case-1" "이유" 0 "모두 기각한다" =
      chunkHashInput "case-1" "이유" 0 "청구 인용한다" ∧
    ("모두 기각한다" : String) ≠ "청구 인용한다" := by
  exact ⟨by decide, by decide⟩

/-- C7 counterexample: the claim states a request with non-positive `top_k`
is rejected before any provider call.  `rag_server.rag` performs no
`top_k` check: with `top_k = -1` the handler reaches the embedding call. -/
theorem C7_counterexample :
    ragServerPhase (some "양육권 질문") (some (-1)) =
      RagPhase.embedCall "양육권 질문" (-1) := by
  decide

/-- C7 (amended): `app.rag_api` rejects an empty question and a non-positive
`top_k` before its embedding call (once data is loaded), but
`rag_server.rag` rejects only the empty question before its embedding
call — `top_k = 0` is silently replaced by the default and a negative
`top_k` flows on (see the counterexample). -/
theorem C7_validation_split :
    (∀ (q : String) (tk : Option Int), pyStripS q = "" →
      ragServerPhase (some q) tk = RagPhase.validationError "question is required") ∧
    (∀ (n m : Nat) (q : String) (tk mc : Option Int), 0 < n → 0 < m →
      (pyStripS q = "" ∨ tk.getD 3 ≤ 0) →
      ∃ msg, appRagPhase n m (some q) tk mc = RagPhase.validationError msg) := by
  constructor
  · intro q tk hq
    unfold ragServerPhase
    simp [hq]
  · intro n m q tk mc hn hm hor
    unfold appRagPhase
    have hnm : ¬ (n = 0 ∨ m = 0) := by omega
    rw [if_neg hnm]
    by_cases hq : pyStripS q = ""
    · exact ⟨"question required", by simp [hq]⟩
    · rcases hor with h | h
      · exact absurd h hq
      · exact ⟨"top_k must be > 0", by simp [hq, h]⟩

/-- Witness for C7: both validation paths at concrete requests. -/
theorem C7_witness :
    ragServerPhase (some "   ") none = RagPhase.validationError "question is required" ∧
    (∃ msg, appRagPhase 3 3 (some "양육권 질문") (some 0) none =
      RagPhase.validationError msg) :=
  ⟨C7_validation_split.1 "   " none (by decide),
   C7_validation_split.2 3 3 "양육권 질문" (some 0) none (by decide) (by decide)
     (Or.inr (by decide))⟩

/-- C8 counterexample: the claim states the diversifier stops once K
candidates are selected, for every desired count K.  With `K = 0` the code
checks the count only after appending, so it still selects the first
eligible candidate instead of stopping at zero. -/
theorem C8_counterexample :
    diversify_by_case (fun r : PCand => r.caseNo) exPCOne 0 = exPCOne := by
  decide

/-- C8 (amended): the diversifier returns the first occurrences of the
distinct non-empty case numbers, truncated to `max(K, 1)` — exactly the
claimed behaviour for `K ≥ 1`, while for `K ≤ 0` one candidate is still
selected when an eligible one exists.  The selection preserves the input
order, its case numbers are pairwise distinct and non-empty, and each
selected candidate is the first of its case number in ranked order. -/
theorem C8_diversify {α : Type} (f : α → List Char) (cands : List α) (limit : Int) :
    diversify_by_case f cands limit =
      (firstOccByCase f cands).take (max limit.toNat 1) ∧
    List.Sublist (diversify_by_case f cands limit) cands ∧
    (diversify_by_case f cands limit).Pairwise (fun a b => f a ≠ f b) ∧
    ∀ x ∈ diversify_by_case f cands limit,
      f x ≠ [] ∧ (cands.filter (fun d => f d == f x)).head? = some x := by
  have hc : diversify_by_case f cands limit =
      (firstOccByCase f cands).take (max limit.toNat 1) := by
    unfold diversify_by_case firstOccByCase
    have h := diversifyGo_eq f limit cands [] []
    simpa using h
  refine ⟨hc, ?_, ?_, ?_⟩
  · rw [hc]
    exact (List.take_sublist _ _).trans (firstOccGo_sublist f cands [])
  · rw [hc]
    exact List.Pairwise.sublist (List.take_sublist _ _) (firstOccGo_pairwise f cands [])
  · intro x hx
    rw [hc] at hx
    have hx2 : x ∈ firstOccGo f cands [] := (List.take_sublist _ _).subset hx
    exact ⟨(firstOccGo_mem f cands [] x hx2).1, firstOccGo_head f cands [] x hx2⟩

/-- Witness for C8 at a concrete ranked list with a repeated case number. -/
theorem C8_witness :
    List.Sublist (diversify_by_case (fun r : PCand => r.caseNo) exPC 2) exPC :=
  (C8_diversify (fun r : PCand => r.caseNo) exPC 2).2.1

/-- C9 counterexample: the claim states the postprocessor is idempotent.
Removing the leftmost case-number label from the raw text splices the
surrounding characters into a new label occurrence, which only the second
pass removes, so the second application changes the output. -/
theorem C9_counterexample :
    postprocess_answer (postprocess_answer exAns9 exPicked9) exPicked9 ≠
      postprocess_answer exAns9 exPicked9 := by
  decide

/-- C9 (amended): the reference-line step itself is idempotent — whenever
the first output is a fixed point of the cleanup passes (heading strip,
label strip, newline collapse, strip), a second application returns it
unchanged and in particular never appends a second reference line; full
idempotence fails because the label-removal regex can create new matches
(see the counterexample). -/
theorem C9_idempotent_on_clean_fixpoint (ans : List Char) (picked : List PCand)
    (h : ppClean (postprocess_answer ans picked) = postprocess_answer ans picked) :
    postprocess_answer (postprocess_answer ans picked) picked =
      postprocess_answer ans picked := by
  set o := postprocess_answer ans picked with ho
  show (if refTail (uniqCases picked) ≠ [] ∧
        pyContains (ppClean o) (refTail (uniqCases picked)) = false
      then ppClean o ++ '\n' :: refTail (uniqCases picked) else ppClean o) = o
  rw [h]
  by_cases hu : uniqCases picked = []
  · have ht : refTail (uniqCases picked) = [] := by rw [hu]; rfl
    rw [ht]
    simp
  · have hocc := pp_tail_occurs ans picked hu
    rw [← ho] at hocc
    simp [hocc]

/-- Witness for C9 at a concrete raw answer whose first output the cleanup
passes leave unchanged. -/
theorem C9_witness :
    postprocess_answer (postprocess_answer exAns9w exPicked9) exPicked9 =
      postprocess_answer exAns9w exPicked9 :=
  C9_idempotent_on_clean_fixpoint exAns9w exPicked9 (by decide)

/-- C10: with the reranker enabled and no candidate carrying a non-empty
text field, `rerank_if_enabled` returns the first `top_k` candidates of the
original pool unchanged rather than an empty list. -/
theorem C10_rerank_no_text_fallback
    (computeScore : List (List Char × List Char) → List ℚ)
    (query : List Char) (cands : List RCand) (k : Nat)
    (h : ∀ c ∈ cands, c.text = []) :
    rerank_if_enabled true computeScore query cands k = cands.take k := by
  unfold rerank_if_enabled
  have hfil : cands.filter (fun c => !c.text.isEmpty) = [] := by
    rw [List.filter_eq_nil_iff]
    intro c hc
    simp [h c hc]
  simp [hfil]

/-- Witness for C10 at a concrete all-text-less pool. -/
theorem C10_witness :
    rerank_if_enabled true exScorer [] exRCands 5 = exRCands.take 5 :=
  C10_rerank_no_text_fallback exScorer [] exRCands 5 (by decide)
